import Mathlib

/-!
Verification development for the india-generation-dashboard rated-capacity
widget (`src/RatedCapacity.tsx`).

The numeric model uses `ℚ` for JavaScript numbers: every `ℚ` is finite, and
the JS non-finite values (`NaN`, `±Infinity`) are modelled by `Option ℚ`
(`none` = non-finite) at the spots where the source can produce them
(`Number(...)` coercion, `compareMonthKey` on unparsable keys).  `safeNum`
collapses `none` to `0` exactly as the source collapses non-finite numbers
to `0`.  `Math.round(x)` is modelled exactly as `⌊x + 1/2⌋` (round half
toward `+∞`), which is the real-number semantics of the JS builtin.
-/

unseal Rat.sub Rat.add Rat.mul Rat.inv

/-- JS `Math.round(n * 100) / 100` (source `round2`, line 38). -/
def round2 (n : ℚ) : ℚ := (⌊n * 100 + 1 / 2⌋ : ℚ) / 100

/-- JS `v.toFixed(2)` applied to `round2 n` (source `fmt2`, line 42).
Since `round2 n` is an exact multiple of `1/100`, `toFixed(2)` performs no
further rounding and just renders sign, integer part and two fraction
digits. -/
def fmt2 (n : ℚ) : String :=
  let c : Int := ⌊n * 100 + 1 / 2⌋
  (if c < 0 then "-" else "") ++ toString (c.natAbs / 100) ++ "." ++
    (if c.natAbs % 100 < 10 then "0" else "") ++ toString (c.natAbs % 100)

/-- Two-ended whitespace trim on a character list; model of JS
`String.prototype.trim` (restricted to ASCII whitespace, the only
whitespace the data contains). -/
def trimChars (cs : List Char) : List Char :=
  ((cs.dropWhile Char.isWhitespace).reverse.dropWhile Char.isWhitespace).reverse

/-- JS `s.trim()` on strings. -/
def jsTrim (s : String) : String := String.mk (trimChars s.data)

/-- JS `s.toLowerCase()` (character-wise, sufficient for the ASCII headers
this program compares). -/
def toLowerStr (s : String) : String := String.mk (s.data.map Char.toLower)

/-- Value of a digit list read in base 10 (helper for the `Number` model). -/
def natOfDigitsRaw (cs : List Char) : Nat :=
  cs.foldl (fun n c => n * 10 + (c.toNat - '0'.toNat)) 0

/-- Unsigned decimal literal: digits, optionally followed by `.` and more
digits, at least one digit in total.  `none` models `NaN`. -/
def parseUnsigned (cs : List Char) : Option ℚ :=
  let intPart := cs.takeWhile Char.isDigit
  let rest := cs.dropWhile Char.isDigit
  match rest with
  | [] => if intPart = [] then none else some (natOfDigitsRaw intPart : ℚ)
  | '.' :: frac =>
      if frac.all Char.isDigit ∧ (intPart ≠ [] ∨ frac ≠ []) then
        some ((natOfDigitsRaw intPart : ℚ) + (natOfDigitsRaw frac : ℚ) / (10 : ℚ) ^ frac.length)
      else none
  | _ => none

/-- Model of the JS `Number(string)` builtin on the decimal literals this
program feeds it: trims, maps the empty string to `0`, accepts an optional
sign followed by an unsigned decimal literal.  Everything else — including
the exotic forms (`Infinity`, hex, exponents) that are non-finite or never
occur in this data — is `none`, which `safeNum` sends to `0` exactly as the
source sends non-finite values to `0`. -/
def jsNumber (s : String) : Option ℚ :=
  let t := trimChars s.data
  if t = [] then some 0
  else if t.head? = some '-' then (parseUnsigned t.tail).map Neg.neg
  else if t.head? = some '+' then parseUnsigned t.tail
  else parseUnsigned t

/-- Source `safeNum` (line 47): coerce and map every non-finite result to 0.
The argument is the JS value being coerced: `none` is `undefined` (absent
CSV cell), `some s` a string cell.  On values that are already finite
numbers (`ℚ` in this model) `safeNum` is the identity, so those call sites
use the number directly. -/
def safeNum (x : Option String) : ℚ :=
  match x with
  | none => 0
  | some s => (jsNumber s).getD 0

/-- The 8 fixed generation sources (source `SourceKey`, line 17). -/
inductive SourceKey where
  | coal | oilGas | nuclear | hydro | solar | wind | smallHydro | bioPower
deriving DecidableEq, Repr

/-- Display name of each source, exactly the strings of `SOURCES` (line 27). -/
def sourceName : SourceKey → String
  | .coal => "Coal"
  | .oilGas => "Oil & Gas"
  | .nuclear => "Nuclear"
  | .hydro => "Hydro"
  | .solar => "Solar"
  | .wind => "Wind"
  | .smallHydro => "Small-Hydro"
  | .bioPower => "Bio Power"

/-- The fixed source order (source `SOURCES`, line 27). -/
def SOURCES : List SourceKey :=
  [.coal, .oilGas, .nuclear, .hydro, .solar, .wind, .smallHydro, .bioPower]

/-- Source `sumSources` (line 52): `keys.reduce((acc, k) => acc + safeNum(obj[k]), 0)`.
The looked-up values are finite numbers (`ℚ`), on which `safeNum` is the
identity. -/
def sumSources (obj : SourceKey → ℚ) (keys : List SourceKey) : ℚ :=
  keys.foldl (fun acc k => acc + obj k) 0

/-! ### CSV parser (source `parseCSVSimple`, lines 56–101) -/

/-- The character loop of `parseLine` (lines 65–95): state is the remaining
characters, the current field `cur`, and the `inQuotes` flag. -/
def parseLineAux : List Char → List Char → Bool → List String
  | [], cur, _ => [String.mk (trimChars cur)]
  | '"' :: '"' :: rest, cur, true => parseLineAux rest (cur ++ ['"']) true
  | '"' :: rest, cur, true => parseLineAux rest cur false
  | '"' :: rest, cur, false => parseLineAux rest cur true
  | c :: rest, cur, inQ =>
      if c = ',' ∧ inQ = false then String.mk (trimChars cur) :: parseLineAux rest [] false
      else parseLineAux rest (cur ++ [c]) inQ

/-- Source `parseLine` (line 65). -/
def parseLine (line : List Char) : List String := parseLineAux line [] false

/-- Split on newline; model of `text.split(/\r?\n/)`.  A `\r` before the
`\n` survives the split here but is removed by the per-line trim that every
caller applies next, so the composition agrees with the source. -/
def splitNl : List Char → List (List Char)
  | [] => [[]]
  | c :: rest =>
    if c = '\n' then [] :: splitNl rest
    else
      match splitNl rest with
      | h :: t => (c :: h) :: t
      | [] => [[c]]

/-- Lines 58–61: split, trim each line, drop falsy (empty) lines. -/
def nonEmptyLines (text : String) : List (List Char) :=
  ((splitNl text.data).map trimChars).filter (fun l => l ≠ [])

/-- Result record of `parseCSVSimple`. -/
structure CSVData where
  header : List String
  rows : List (List String)
deriving DecidableEq, Repr

/-- Source `parseCSVSimple` (line 56): first non-empty line is the header,
the rest are data rows. -/
def parseCSVSimple (text : String) : CSVData :=
  match nonEmptyLines text with
  | [] => ⟨[], []⟩
  | h :: rest => ⟨parseLine h, rest.map parseLine⟩

/-! ### Month-key utilities (source lines 132–167) -/

/-- Split on `/`; model of JS `s.split("/")`. -/
def splitSlash : List Char → List (List Char)
  | [] => [[]]
  | c :: rest =>
    if c = '/' then [] :: splitSlash rest
    else
      match splitSlash rest with
      | h :: t => (c :: h) :: t
      | [] => [[c]]

/-- `monthKey.split("/").map(Number)` destructured to its first two
entries (a missing entry is `undefined`, whose `Number` is `NaN = none`). -/
def monthYearParts (s : String) : Option ℚ × Option ℚ :=
  let parts := (splitSlash s.data).map (fun cs => jsNumber (String.mk cs))
  (parts.getD 0 none, parts.getD 1 none)

/-- Source `compareMonthKey` (line 132): year difference, then month
difference.  `none` is the `NaN` the JS code returns when a key fails to
parse (note `NaN !== NaN` makes the year test true, and `NaN` arithmetic
propagates, so any unparsable year, or equal years with an unparsable
month, produce `NaN`). -/
def compareMonthKey (a b : String) : Option ℚ :=
  match monthYearParts a, monthYearParts b with
  | (am, some ay), (bm, some by') =>
      if ay ≠ by' then some (ay - by')
      else
        match am, bm with
        | some m1, some m2 => some (m1 - m2)
        | _, _ => none
  | _, _ => none

/-- JS test `compareMonthKey a b <= 0` (with `NaN <= 0` false). -/
def cmpLeB (a b : String) : Bool :=
  match compareMonthKey a b with
  | some q => decide (q ≤ 0)
  | none => false

/-- JS test `compareMonthKey a b > 0` (with `NaN > 0` false). -/
def cmpGtB (a b : String) : Bool :=
  match compareMonthKey a b with
  | some q => decide (0 < q)
  | none => false

/-- Defaulted (year, month) sort key: the parsed components with `NaN`
replaced by 0.  On keys both of whose components parse this is exactly the
information `compareMonthKey` compares. -/
def mkParts (s : String) : ℚ × ℚ :=
  ((monthYearParts s).2.getD 0, (monthYearParts s).1.getD 0)

/-- Boolean "not after" order used to model `Array.prototype.sort` with the
`compareMonthKey` comparator.  On fully parsed keys it coincides with
`compareMonthKey a b ≤ 0`; on unparsable keys (where the JS comparator
returns `NaN` and the engine's order is unspecified) it is the
lexicographic extension by the defaulted parts, a consistent total
preorder. -/
def mkLeB (a b : String) : Bool :=
  decide ((mkParts a).1 < (mkParts b).1 ∨
          ((mkParts a).1 = (mkParts b).1 ∧ (mkParts a).2 ≤ (mkParts b).2))

/-- `mkLeB` as a relation, for `List.insertionSort`. -/
def MKle (a b : String) : Prop := mkLeB a b = true

instance : DecidableRel MKle := fun a b => decEq (mkLeB a b) true

instance : IsTotal String MKle := by
  constructor
  intro a b
  simp only [MKle, mkLeB, decide_eq_true_eq]
  rcases lt_trichotomy (mkParts a).1 (mkParts b).1 with hlt | heq | hgt
  · exact Or.inl (Or.inl hlt)
  · rcases le_total (mkParts a).2 (mkParts b).2 with hm | hm
    · exact Or.inl (Or.inr ⟨heq, hm⟩)
    · exact Or.inr (Or.inr ⟨heq.symm, hm⟩)
  · exact Or.inr (Or.inl hgt)

instance : IsTrans String MKle := by
  constructor
  intro a b c hab hbc
  simp only [MKle, mkLeB, decide_eq_true_eq] at hab hbc ⊢
  rcases hab with h1 | ⟨e1, m1⟩ <;> rcases hbc with h2 | ⟨e2, m2⟩
  · exact Or.inl (lt_trans h1 h2)
  · exact Or.inl (e2 ▸ h1)
  · exact Or.inl (e1 ▸ h2)
  · exact Or.inr ⟨e1.trans e2, le_trans m1 m2⟩

/-- Source `minusMonths` loop body (lines 146–153), iterated `monthsBack`
times: decrement the month, borrowing a year when it reaches 0.  The
components are `Option ℚ` because an unparsable key carries `NaN` through
the loop (`NaN <= 0` is false, so a `NaN` month never borrows). -/
def minusMonthsAux : Option ℚ → Option ℚ → Nat → Option ℚ × Option ℚ
  | m, y, 0 => (m, y)
  | m, y, k + 1 =>
      let m1 := m.map (fun q => q - 1)
      if (match m1 with | some q => decide (q ≤ 0) | none => false) then
        minusMonthsAux (some 12) (y.map (fun q => q - 1)) k
      else minusMonthsAux m1 y k

/-- JS `String(n)` on the numbers this program prints: integers render as
their decimal numeral, `NaN` as `"NaN"` (non-integer rationals, which no
month key ever produces, fall back to Lean's rational rendering). -/
def numToStr (o : Option ℚ) : String :=
  match o with
  | none => "NaN"
  | some q => if q.den = 1 then toString q.num else toString q

/-- JS `s.padStart(2, "0")`. -/
def padStart2 (s : String) : String :=
  if s.length < 2 then String.mk (List.replicate (2 - s.length) '0') ++ s else s

/-- Source `minusMonths` (line 140). -/
def minusMonths (monthKey : String) (monthsBack : Nat) : String :=
  let p := monthYearParts monthKey
  let r := minusMonthsAux p.1 p.2 monthsBack
  padStart2 (numToStr r.1) ++ "/" ++ numToStr r.2

/-- Source `clampMonthKeyToOptions` (line 157): return `target` when the
options are empty or contain it; otherwise sort the options and scan from
the latest down for the first one not after `target`, falling back to the
earliest option.  `insertionSort` models `Array.prototype.sort` (stable);
the backwards scan is `find?` on the reversed sorted list. -/
def clampMonthKeyToOptions (target : String) (options : List String) : String :=
  if options = [] then target
  else if target ∈ options then target
  else
    let sorted := List.insertionSort MKle options
    match sorted.reverse.find? (fun o => cmpLeB o target) with
    | some o => o
    | none => sorted.headD target

/-! ### Shape of a month token and the history store (lines 302–378) -/

/-- The regex `^\d{2}\/\d{4}$` of line 350: exactly two digits, a slash and
four digits. -/
def isMonthShape (s : String) : Bool :=
  match s.data with
  | [d1, d2, sl, y1, y2, y3, y4] =>
      d1.isDigit && d2.isDigit && sl = '/' && y1.isDigit && y2.isDigit && y3.isDigit && y4.isDigit
  | _ => false

/-- Modelled from the spec: a well-formed MonthKey is a zero-padded month
01–12, a slash, and a four-digit year.  This is the spec's notion, stated
for comparison with the code's shape test `isMonthShape`, which does not
bound the month. -/
def specWellFormedMonthKey (s : String) : Bool :=
  isMonthShape s &&
    (match (jsNumber (String.mk ((splitSlash s.data).getD 0 []))) with
     | some m => decide (1 ≤ m ∧ m ≤ 12)
     | none => false)

/-- One history row (source `MonthRow`, line 302). -/
structure MonthRow where
  month : String
  values : SourceKey → ℚ

/-- Relation used to model `parsed.sort((a, b) => compareMonthKey(a.month, b.month))`. -/
def rowLe (a b : MonthRow) : Prop := MKle a.month b.month

instance : DecidableRel rowLe := fun a b => decEq (mkLeB a.month b.month) true

instance : IsTotal MonthRow rowLe :=
  ⟨fun a b => IsTotal.total (r := MKle) a.month b.month⟩

instance : IsTrans MonthRow rowLe :=
  ⟨fun _ _ _ hab hbc => IsTrans.trans (r := MKle) _ _ _ hab hbc⟩

/-- Source `loadHistory` (lines 334–372), the pure part after the fetch:
parse the CSV, fail (`none`) on an empty parse or a missing `Month` column,
keep exactly the data rows whose month token matches the shape regex,
read each source's value through `safeNum` from the same-named header
column (0 when the column is absent), and sort ascending by month key.
`none` models the `catch` branch that clears the history. -/
def loadHistory (text : String) : Option (List MonthRow) :=
  let csv := parseCSVSimple text
  if csv.header = [] ∨ csv.rows = [] then none
  else
    match csv.header.findIdx? (fun h => toLowerStr (jsTrim h) = "month") with
    | none => none
    | some monthIdx =>
        let parsed := csv.rows.filterMap (fun row =>
          let mk := jsTrim (row.getD monthIdx "")
          if isMonthShape mk then
            some { month := mk
                   values := fun s =>
                     match csv.header.findIdx? (fun h => jsTrim h = sourceName s) with
                     | some idx => safeNum (row.get? idx)
                     | none => 0 }
          else none)
        some (List.insertionSort rowLe parsed)

/-- Source `monthOptions` memo (line 310): the months of the history rows,
falsy (empty) entries dropped, sorted by month key. -/
def monthOptionsOf (hist : List MonthRow) : List String :=
  List.insertionSort MKle ((hist.map MonthRow.month).filter (fun m => m ≠ ""))

/-- Source `startRow`/`endRow` memos (lines 400–408): `null` when no month
is selected, else the first history row with that month (`Array.find`). -/
def rowFor (hist : List MonthRow) (m : String) : Option MonthRow :=
  if m = "" then none else hist.find? (fun r => r.month = m)

/-- Source `startTotals`/`endTotals` memos (lines 410–426): the row's value
map together with its source total. -/
def totalsOf (r : MonthRow) : (SourceKey → ℚ) × ℚ :=
  (r.values, sumSources r.values SOURCES)

/-- Source `netAdditions` memo (lines 428–440): per-source rounded
difference of end and start values, 0 when either side is absent; total
rounded difference of the two totals, 0 when either is absent. -/
def netAdditionsOf (hist : List MonthRow) (startMonth endMonth : String) :
    (SourceKey → ℚ) × ℚ :=
  let sT := (rowFor hist startMonth).map totalsOf
  let eT := (rowFor hist endMonth).map totalsOf
  let per : SourceKey → ℚ := fun s =>
    match sT, eT with
    | some a, some b => round2 (b.1 s - a.1 s)
    | _, _ => 0
  let total : ℚ :=
    match sT, eT with
    | some a, some b => round2 (b.2 - a.2)
    | _, _ => 0
  (per, total)

/-! ### Rated capacity (lines 287–297) -/

/-- Source `ratedBySource` memo (line 287):
`round2(safeNum(installed[s]) * (safeNum(plf[s]) / 100))`; the stored
values are finite numbers, on which `safeNum` is the identity. -/
def ratedBySource (installed plf : SourceKey → ℚ) (s : SourceKey) : ℚ :=
  round2 (installed s * (plf s / 100))

/-- Source `ratedTotal` memo (line 295). -/
def ratedTotal (installed plf : SourceKey → ℚ) : ℚ :=
  sumSources (ratedBySource installed plf) SOURCES

/-! ### Installed-capacity snapshot load (lines 219–254) -/

/-- The header-to-cell object of lines 228–231: `map[h] = row[i] ?? ""`.
For duplicate header names the later assignment wins; a lookup of a name
absent from the header is `undefined` (`none`). -/
def headerMapLookup (header row : List String) (s : String) : Option String :=
  ((header.enum.filter (fun p => p.2 = s)).getLast?).map (fun p => row.getD p.1 "")

/-- Source `loadCapacitySingleRow` (lines 219–254), the pure part after the
fetch: fail (`none`) on an empty parse; otherwise rebuild the whole
installed map from the first data row.  The source guard
`Number.isFinite(v)` sits after `safeNum`, whose result is always finite,
so the guard passes for every one of the 8 sources (absent header columns
give `safeNum(undefined) = 0`) and the `any` flag is always set. -/
def loadCapacitySingleRow (installed : SourceKey → ℚ) (text : String) :
    Option (SourceKey → ℚ) :=
  let csv := parseCSVSimple text
  if csv.header = [] ∨ csv.rows = [] then none
  else
    let row := csv.rows.getD 0 []
    some (fun s => safeNum (headerMapLookup csv.header row (sourceName s)))

/-! ### Selection state machine (lines 320–398) -/

/-- The month-selection state: the two `useState` strings, `""` meaning
"nothing selected". -/
structure SelState where
  startMonth : String
  endMonth : String
deriving DecidableEq, Repr

/-- Events that change the selection: the two `<select>` `onChange`
handlers and the effect of line 381 that (re-)initialises the selection
when the history's month options arrive or change. -/
inductive SelAction where
  | setStart (m : String)
  | setEnd (m : String)
  | historyArrived (months : List String)

/-- JS `a || b` on strings. -/
def jsOr (a b : String) : String := if a ≠ "" then a else b

/-- The initialisation effect (lines 381–389): given the month options,
clamp an existing selection into them, or default the end to the latest
month and the start to 12 months earlier clamped into the options. -/
def historyArrivedStep (months : List String) (st : SelState) : SelState :=
  let opts := List.insertionSort MKle (months.filter (fun m => m ≠ ""))
  if opts = [] then st
  else
    let latest := opts.getLastD ""
    let dStart := clampMonthKeyToOptions (minusMonths latest 12) opts
    let endDefault := jsOr latest (opts.getLastD "")
    let startDefault := jsOr dStart (jsOr (opts.getD (opts.length - 13) "") (opts.getD 0 ""))
    { startMonth :=
        if st.startMonth ≠ "" then clampMonthKeyToOptions st.startMonth opts else startDefault
      endMonth :=
        if st.endMonth ≠ "" then clampMonthKeyToOptions st.endMonth opts else endDefault }

/-- The raw effect of each action, before the ordering effect runs. -/
def applySelAction : SelAction → SelState → SelState
  | .setStart m, st => { st with startMonth := m }
  | .setEnd m, st => { st with endMonth := m }
  | .historyArrived months, st => historyArrivedStep months st

/-- The enforcement effect (lines 392–398): when both months are selected
and start compares after end, start is clamped down to end. -/
def enforceStartLE (st : SelState) : SelState :=
  if st.startMonth ≠ "" ∧ st.endMonth ≠ "" ∧ cmpGtB st.startMonth st.endMonth = true then
    { startMonth := st.endMonth, endMonth := st.endMonth }
  else st

/-- One observable transition: the action, then the enforcement effect
(which React runs before the next user interaction). -/
def selStep (a : SelAction) (st : SelState) : SelState :=
  enforceStartLE (applySelAction a st)

/-- The initial state: nothing selected. -/
def selInit : SelState := ⟨"", ""⟩

/-- States reachable from the initial state by any sequence of actions. -/
inductive SelReachable : SelState → Prop where
  | init : SelReachable selInit
  | step (a : SelAction) (st : SelState) : SelReachable st → SelReachable (selStep a st)

/-! ### Helper lemmas -/

theorem sumSources_eq_map_sum_aux (f : SourceKey → ℚ) (keys : List SourceKey) :
    ∀ init : ℚ, keys.foldl (fun acc k => acc + f k) init = init + (keys.map f).sum := by
  induction keys with
  | nil => intro init; simp
  | cons k ks ih =>
      intro init
      simp only [List.foldl_cons, List.map_cons, List.sum_cons, ih (init + f k)]
      ring

theorem sumSources_eq_map_sum (f : SourceKey → ℚ) (keys : List SourceKey) :
    sumSources f keys = (keys.map f).sum := by
  simpa using sumSources_eq_map_sum_aux f keys 0

/-! ### C1: rated capacity -/

/-- C1: for every installed-capacity mapping and every PLF mapping, each
source's rated capacity is `round2(installed[s] * plf[s] / 100)` (non-finite
inputs are already coerced to 0 in the `ℚ` model), the rated total is the
sum of the per-source rated values, and installed 100 with PLF 85 renders
as `85.00`. -/
theorem ratedCapacity_spec (installed plf : SourceKey → ℚ) :
    (∀ s, ratedBySource installed plf s = round2 (installed s * plf s / 100)) ∧
    ratedTotal installed plf = (SOURCES.map (ratedBySource installed plf)).sum ∧
    fmt2 (ratedBySource (fun _ => 100) (fun _ => 85) SourceKey.coal) = "85.00" := by
  refine ⟨fun s => ?_, ?_, ?_⟩
  · unfold ratedBySource
    rw [mul_div_assoc]
  · unfold ratedTotal
    exact sumSources_eq_map_sum _ _
  · decide

/-! ### C4: snapshot load overwrites every source (code bug) -/

/-- The prior installed map of the C4 failing input: Oil & Gas holds 50,
everything else 0. -/
def priorInstalledC4 : SourceKey → ℚ := fun s =>
  match s with
  | .oilGas => 50
  | _ => 0

/-- C4 failing input, evaluated: loading the snapshot `"Coal,Nuclear\n100,7"`
over a prior map with Oil & Gas = 50 succeeds and OVERWRITES Oil & Gas —
a source absent from the header — with 0 (and Coal with 100), instead of
leaving it unchanged at 50: the `Number.isFinite` guard of line 237 runs on
the already-coerced `safeNum` result and is therefore always true. -/
theorem loadCapacitySingleRow_overwrites_absent_source :
    ((loadCapacitySingleRow priorInstalledC4 "Coal,Nuclear\n100,7").map
      (fun f => (f SourceKey.oilGas, f SourceKey.coal))) = some (0, 100) ∧
    priorInstalledC4 SourceKey.oilGas = 50 := by
  constructor
  · decide
  · decide

/-! ### C2: which month tokens are excluded (corrected) -/

/-- C2 counterexample: in the history CSV
`"Month,Coal\n13/2024,5\n1/24,6"` the token `13/2024` is NOT a well-formed
MonthKey in the claim's sense (its month exceeds 12), yet the row is
retained by the load and its token appears in the month options: the code
only checks the shape `\d\d/\d\d\d\d`. -/
theorem loadHistory_keeps_month_13 :
    ((loadHistory "Month,Coal\n13/2024,5\n1/24,6").map (fun h => h.map MonthRow.month)) =
      some ["13/2024"] ∧
    ((loadHistory "Month,Coal\n13/2024,5\n1/24,6").map monthOptionsOf) = some ["13/2024"] ∧
    specWellFormedMonthKey "13/2024" = false := by
  refine ⟨by decide, by decide, by decide⟩

/-! ### Bridge lemmas: shape-valid keys and the comparator -/

theorem digit_not_ws {c : Char} (h : c.isDigit = true) : c.isWhitespace = false := by
  by_contra hws
  simp only [Bool.not_eq_false, Char.isWhitespace] at hws
  rcases Bool.or_eq_true_iff.mp hws with h1 | h1
  · rcases Bool.or_eq_true_iff.mp h1 with h2 | h2
    · rcases Bool.or_eq_true_iff.mp h2 with h3 | h3 <;>
        (first
          | (have : c = ' ' := by simpa using h3
             subst this; simp [Char.isDigit] at h)
          | (have : c = '\t' := by simpa using h3
             subst this; simp [Char.isDigit] at h))
    · have : c = '\r' := by simpa using h2
      subst this; simp [Char.isDigit] at h
  · have : c = '\n' := by simpa using h1
    subst this; simp [Char.isDigit] at h

theorem digit_ne {c d : Char} (h : c.isDigit = true) (hd : d.isDigit = false) : c ≠ d := by
  rintro rfl
  rw [h] at hd
  exact Bool.true_eq_false.mp hd

theorem trimChars_no_ws {cs : List Char} (h : ∀ c ∈ cs, c.isWhitespace = false) :
    trimChars cs = cs := by
  unfold trimChars
  have h1 : cs.dropWhile Char.isWhitespace = cs := by
    rw [List.dropWhile_eq_self_iff]
    intro hl
    rw [h _ (cs.get_mem 0 hl)]
    simp
  rw [h1]
  have h2 : cs.reverse.dropWhile Char.isWhitespace = cs.reverse := by
    rw [List.dropWhile_eq_self_iff]
    intro hl
    rw [h _ (List.mem_reverse.mp (cs.reverse.get_mem 0 hl))]
    simp
  rw [h2, List.reverse_reverse]

theorem jsNumber_digits {cs : List Char} (h1 : cs ≠ []) (h2 : ∀ c ∈ cs, c.isDigit = true) :
    jsNumber (String.mk cs) = some (natOfDigitsRaw cs : ℚ) := by
  have hws : ∀ c ∈ cs, c.isWhitespace = false := fun c hc => digit_not_ws (h2 c hc)
  have htrim : trimChars cs = cs := trimChars_no_ws hws
  unfold jsNumber
  simp only [String.mk, htrim]
  rw [if_neg h1]
  obtain ⟨c, cs', rfl⟩ := List.exists_cons_of_ne_nil h1
  have hc := h2 c (List.mem_cons_self c cs')
  have hminus : c ≠ '-' := digit_ne hc (by decide)
  have hplus : c ≠ '+' := digit_ne hc (by decide)
  rw [if_neg (by simp [hminus]), if_neg (by simp [hplus])]
  unfold parseUnsigned
  have htake : (c :: cs').takeWhile Char.isDigit = c :: cs' :=
    List.takeWhile_eq_self_iff.mpr h2
  have hdrop : (c :: cs').dropWhile Char.isDigit = [] :=
    List.dropWhile_eq_nil_iff.mpr h2
  simp only [htake, hdrop]
  simp

theorem isMonthShape_elim {s : String} (h : isMonthShape s = true) :
    ∃ d1 d2 y1 y2 y3 y4 : Char,
      s.data = [d1, d2, '/', y1, y2, y3, y4] ∧
      d1.isDigit = true ∧ d2.isDigit = true ∧ y1.isDigit = true ∧ y2.isDigit = true ∧
      y3.isDigit = true ∧ y4.isDigit = true := by
  unfold isMonthShape at h
  split at h
  case _ d1 d2 sl y1 y2 y3 y4 heq =>
    simp only [Bool.and_eq_true, decide_eq_true_eq] at h
    obtain ⟨⟨⟨⟨⟨⟨h1, h2⟩, hsl⟩, h3⟩, h4⟩, h5⟩, h6⟩ := h
    exact ⟨d1, d2, y1, y2, y3, y4, by rw [heq, hsl], h1, h2, h3, h4, h5, h6⟩
  case _ => exact absurd h (by simp)

theorem shape_parts {s : String} (h : isMonthShape s = true) :
    ∃ m y : ℚ, monthYearParts s = (some m, some y) ∧ mkParts s = (y, m) := by
  obtain ⟨d1, d2, y1, y2, y3, y4, hdata, h1, h2, h3, h4, h5, h6⟩ := isMonthShape_elim h
  have n1 : d1 ≠ '/' := digit_ne h1 (by decide)
  have n2 : d2 ≠ '/' := digit_ne h2 (by decide)
  have n3 : y1 ≠ '/' := digit_ne h3 (by decide)
  have n4 : y2 ≠ '/' := digit_ne h4 (by decide)
  have n5 : y3 ≠ '/' := digit_ne h5 (by decide)
  have n6 : y4 ≠ '/' := digit_ne h6 (by decide)
  have hsplit : splitSlash s.data = [[d1, d2], [y1, y2, y3, y4]] := by
    rw [hdata]
    simp [splitSlash, n1, n2, n3, n4, n5, n6]
  have hm : jsNumber (String.mk [d1, d2]) = some (natOfDigitsRaw [d1, d2] : ℚ) := by
    refine jsNumber_digits (by simp) ?_
    intro c hc
    simp only [List.mem_cons, List.not_mem_nil, or_false] at hc
    rcases hc with rfl | rfl <;> assumption
  have hy : jsNumber (String.mk [y1, y2, y3, y4]) = some (natOfDigitsRaw [y1, y2, y3, y4] : ℚ) := by
    refine jsNumber_digits (by simp) ?_
    intro c hc
    simp only [List.mem_cons, List.not_mem_nil, or_false] at hc
    rcases hc with rfl | rfl | rfl | rfl <;> assumption
  refine ⟨(natOfDigitsRaw [d1, d2] : ℚ), (natOfDigitsRaw [y1, y2, y3, y4] : ℚ), ?_, ?_⟩
  · unfold monthYearParts
    rw [hsplit]
    simp [hm, hy]
  · unfold mkParts monthYearParts
    rw [hsplit]
    simp [hm, hy]

theorem compare_shape {a b : String} (ha : isMonthShape a = true) (hb : isMonthShape b = true) :
    ∃ q, compareMonthKey a b = some q ∧ (q ≤ 0 ↔ MKle a b) := by
  obtain ⟨ma, ya, hpa, hka⟩ := shape_parts ha
  obtain ⟨mb, yb, hpb, hkb⟩ := shape_parts hb
  unfold compareMonthKey
  rw [hpa, hpb]
  unfold MKle mkLeB
  rw [hka, hkb]
  by_cases hy : ya = yb
  · subst hy
    refine ⟨ma - mb, by simp, ?_⟩
    simp [sub_nonpos]
  · refine ⟨ya - yb, by simp [hy], ?_⟩
    constructor
    · intro hle
      have : ya < yb := lt_of_le_of_ne (by linarith [sub_nonpos.mp hle]) hy
      simp [this]
    · intro hml
      simp only [decide_eq_true_eq] at hml
      rcases hml with hlt | ⟨heq, _⟩
      · linarith
      · exact absurd heq hy

theorem cmpLeB_iff {a b : String} :
    cmpLeB a b = true ↔ ∃ q, compareMonthKey a b = some q ∧ q ≤ 0 := by
  unfold cmpLeB
  rcases hc : compareMonthKey a b with _ | q
  · simp
  · simp

theorem MKle_refl (a : String) : MKle a a := by
  unfold MKle mkLeB
  simp

theorem cmp_self_eq_zero {a : String} {q : ℚ} (h : compareMonthKey a a = some q) : q = 0 := by
  unfold compareMonthKey at h
  rcases hp : monthYearParts a with ⟨am, ay⟩
  rw [hp] at h
  rcases ay with _ | yv
  · simp at h
  · simp only [ne_eq, not_true_eq_false, if_neg] at h
    rcases am with _ | mv
    · simp at h
    · simp at h
      linarith [h]

/-! ### Structure of a successful history load -/

theorem loadHistory_row_shape {text : String} {hist : List MonthRow}
    (h : loadHistory text = some hist) : ∀ r ∈ hist, isMonthShape r.month = true := by
  unfold loadHistory at h
  simp only [] at h
  split at h
  · exact absurd h (by simp)
  · split at h
    · exact absurd h (by simp)
    · injection h with h
      subst h
      intro r hr
      rw [List.mem_insertionSort] at hr
      rw [List.mem_filterMap] at hr
      obtain ⟨row, _, hrow⟩ := hr
      split at hrow
      · injection hrow with hrow
        subst hrow
        assumption
      · exact absurd hrow (by simp)

theorem loadHistory_sorted {text : String} {hist : List MonthRow}
    (h : loadHistory text = some hist) : List.Pairwise rowLe hist := by
  unfold loadHistory at h
  simp only [] at h
  split at h
  · exact absurd h (by simp)
  · split at h
    · exact absurd h (by simp)
    · injection h with h
      subst h
      exact List.sorted_insertionSort rowLe _

theorem find?_split {α : Type} (p : α → Bool) (l : List α) (r : α) (h : l.find? p = some r) :
    ∃ as bs, l = as ++ r :: bs ∧ (∀ a ∈ as, p a = false) ∧ p r = true := by
  induction l with
  | nil => simp at h
  | cons x xs ih =>
      by_cases hx : p x
      · rw [List.find?_cons] at h
        rw [hx] at h
        injection h with h
        subst h
        exact ⟨[], xs, rfl, by simp, hx⟩
      · rw [List.find?_cons] at h
        rw [Bool.not_eq_true] at hx
        rw [hx] at h
        obtain ⟨as, bs, rfl, hall, hr⟩ := ih h
        refine ⟨x :: as, bs, rfl, ?_, hr⟩
        intro a ha
        rcases List.mem_cons.mp ha with rfl | ha
        · exact hx
        · exact hall a ha

/-! ### C2: malformed-month filtering (corrected) -/

/-- C2 (amended): a history row is retained, and its month token appears in
the month options, exactly when the token matches the code's shape test
`\d\d/\d\d\d\d`; the month number is NOT bounded by 12, so `1/24` is
excluded but `13/2024` is retained.  The general conjuncts say every
retained month and every month option matches the shape; the concrete
conjunct shows the example CSV keeping `13/2024` while dropping `1/24`. -/
theorem loadHistory_month_shape_filter :
    (∀ text m, m ∈ ((loadHistory text).getD []).map MonthRow.month → isMonthShape m = true) ∧
    (∀ text m, m ∈ monthOptionsOf ((loadHistory text).getD []) → isMonthShape m = true) ∧
    ((loadHistory "Month,Coal\n13/2024,5\n1/24,6").map (fun h => h.map MonthRow.month)) =
      some ["13/2024"] := by
  refine ⟨?_, ?_, by decide⟩
  · intro text m hm
    rcases hl : loadHistory text with _ | hist
    · rw [hl] at hm
      simp at hm
    · rw [hl] at hm
      simp only [Option.getD_some] at hm
      obtain ⟨r, hr, rfl⟩ := List.mem_map.mp hm
      exact loadHistory_row_shape hl r hr
  · intro text m hm
    rcases hl : loadHistory text with _ | hist
    · rw [hl] at hm
      simp [monthOptionsOf] at hm
    · rw [hl] at hm
      simp only [Option.getD_some, monthOptionsOf, List.mem_insertionSort] at hm
      rw [List.mem_filter] at hm
      obtain ⟨r, hr, rfl⟩ := List.mem_map.mp hm.1
      exact loadHistory_row_shape hl r hr

/-- Witness for C2 (amended), instantiating the general filter conjunct on
the example CSV. -/
theorem loadHistory_month_shape_filter_witness : isMonthShape "13/2024" = true :=
  loadHistory_month_shape_filter.1 "Month,Coal\n13/2024,5\n1/24,6" "13/2024" (by decide)

/-! ### C3: duplicates and which row wins (corrected) -/

/-- C3 counterexample: a CSV with two rows for `01/2024` loads into a
History with TWO entries for that MonthKey (no deduplication), and the row
lookup (`Array.find`) returns the FIRST parsed row's values (Coal = 5, not
the last row's 7): "at most one entry per MonthKey, last wins" is false. -/
theorem loadHistory_keeps_duplicate_months :
    ((loadHistory "Month,Coal\n01/2024,5\n01/2024,7").map (fun h => h.map MonthRow.month)) =
      some ["01/2024", "01/2024"] ∧
    ((loadHistory "Month,Coal\n01/2024,5\n01/2024,7").map
        (fun h => (rowFor h "01/2024").map (fun r => r.values SourceKey.coal))) =
      some (some 5) :=
  ⟨by decide, by decide⟩

/-- C3 (amended): after every successful history load the history is
sorted ascending (non-strictly) by MonthKey; rows with duplicate MonthKeys
are ALL retained, and the row lookup used for the selection returns the
first row carrying the looked-up month (first parsed wins, not last).  The
concrete conjunct shows the duplicate CSV retaining both rows in order. -/
theorem loadHistory_sorted_and_first_wins :
    (∀ text, (((loadHistory text).getD []).map MonthRow.month).Pairwise
        (fun a b => ∃ q, compareMonthKey a b = some q ∧ q ≤ 0)) ∧
    (∀ hist m r, rowFor hist m = some r →
        r.month = m ∧ ∃ pre post, hist = pre ++ r :: post ∧ ∀ x ∈ pre, x.month ≠ m) ∧
    ((loadHistory "Month,Coal\n01/2024,5\n01/2024,7").map (fun h => h.map MonthRow.month)) =
      some ["01/2024", "01/2024"] := by
  refine ⟨?_, ?_, by decide⟩
  · intro text
    rcases hl : loadHistory text with _ | hist
    · simp
    · simp only [Option.getD_some]
      rw [List.pairwise_map]
      have hsorted := loadHistory_sorted hl
      have hshape := loadHistory_row_shape hl
      refine hsorted.imp_of_mem ?_
      intro a b ha hb hab
      obtain ⟨q, hq, hiff⟩ := compare_shape (hshape a ha) (hshape b hb)
      exact ⟨q, hq, hiff.mpr hab⟩
  · intro hist m r h
    unfold rowFor at h
    split at h
    · exact absurd h (by simp)
    · obtain ⟨pre, post, rfl, hall, hr⟩ := find?_split _ _ _ h
      refine ⟨by simpa using hr, pre, post, rfl, ?_⟩
      intro x hx
      have := hall x hx
      simpa using this

/-- Witness for C3 (amended), instantiating the lookup conjunct on a
one-row history. -/
theorem loadHistory_sorted_and_first_wins_witness :
    ({ month := "01/2024", values := fun _ => 5 } : MonthRow).month = "01/2024" :=
  (loadHistory_sorted_and_first_wins.2.1 [{ month := "01/2024", values := fun _ => 5 }]
    "01/2024" _ rfl).1

/-! ### C8: net additions -/

/-- C8: whenever both the start and the end row are found in the history,
every per-source net addition is `round2(end − start)` and the total is
`round2(sum of end values − sum of start values)`; when either row is
absent (including an empty selection), every per-source value and the
total are 0. -/
theorem netAdditions_spec (hist : List MonthRow) (sm em : String) :
    (∀ sr er, rowFor hist sm = some sr → rowFor hist em = some er →
      (∀ s, (netAdditionsOf hist sm em).1 s = round2 (er.values s - sr.values s)) ∧
      (netAdditionsOf hist sm em).2 =
        round2 ((SOURCES.map er.values).sum - (SOURCES.map sr.values).sum)) ∧
    (rowFor hist sm = none ∨ rowFor hist em = none →
      (∀ s, (netAdditionsOf hist sm em).1 s = 0) ∧ (netAdditionsOf hist sm em).2 = 0) := by
  constructor
  · intro sr er hs he
    unfold netAdditionsOf
    rw [hs, he]
    simp only [Option.map_some']
    refine ⟨fun s => rfl, ?_⟩
    show round2 ((totalsOf er).2 - (totalsOf sr).2) = _
    unfold totalsOf
    rw [sumSources_eq_map_sum, sumSources_eq_map_sum]
  · intro habs
    unfold netAdditionsOf
    rcases hs : rowFor hist sm with _ | sr <;> rcases he : rowFor hist em with _ | er
    · exact ⟨fun s => rfl, rfl⟩
    · exact ⟨fun s => rfl, rfl⟩
    · exact ⟨fun s => rfl, rfl⟩
    · rw [hs, he] at habs
      rcases habs with h | h <;> exact absurd h (by simp)

/-- Witness for C8, on a two-row history: Coal grows from 50 to 55, so the
Coal net addition is `round2(55 − 50)`. -/
theorem netAdditions_spec_witness :
    (netAdditionsOf
        [{ month := "01/2023", values := fun _ => 50 },
         { month := "01/2024", values := fun _ => 55 }] "01/2023" "01/2024").1
      SourceKey.coal = round2 (55 - 50) :=
  ((netAdditions_spec
      [{ month := "01/2023", values := fun _ => 50 },
       { month := "01/2024", values := fun _ => 55 }] "01/2023" "01/2024").1
    { month := "01/2023", values := fun _ => 50 }
    { month := "01/2024", values := fun _ => 55 } rfl rfl).1 SourceKey.coal

/-! ### C9: shiftBack month arithmetic (corrected) -/

/-- C9 counterexample: `"03/0024"` is a well-formed MonthKey (zero-padded
month, four-digit year), but `minusMonths "03/0024" 12` renders the year
through JS `String(...)` without padding and returns `"03/23"`, which is
not a well-formed MonthKey. -/
theorem minusMonths_result_not_always_monthkey :
    minusMonths "03/0024" 12 = "03/23" ∧
    specWellFormedMonthKey "03/0024" = true ∧
    specWellFormedMonthKey "03/23" = false ∧ isMonthShape "03/23" = false :=
  ⟨by decide, by decide, by decide, by decide⟩

theorem minusMonthsAux_int (n : Nat) : ∀ mi yi : ℤ, 1 ≤ mi → mi ≤ 12 →
    ∃ m' y' : ℤ, 1 ≤ m' ∧ m' ≤ 12 ∧ 12 * y' + m' = 12 * yi + mi - n ∧
      minusMonthsAux (some (mi : ℚ)) (some (yi : ℚ)) n = (some (m' : ℚ), some (y' : ℚ)) := by
  induction n with
  | zero =>
      intro mi yi h1 h2
      exact ⟨mi, yi, h1, h2, by push_cast; ring, rfl⟩
  | succ k ih =>
      intro mi yi h1 h2
      unfold minusMonthsAux
      simp only [Option.map_some']
      by_cases hm : mi = 1
      · subst hm
        rw [if_pos (by norm_num)]
        obtain ⟨m', y', hb1, hb2, heq, hrun⟩ := ih 12 (yi - 1) (by norm_num) (by norm_num)
        refine ⟨m', y', hb1, hb2, by push_cast at heq ⊢; linarith, ?_⟩
        have c1 : ((12 : ℤ) : ℚ) = 12 := by push_cast; ring
        have c2 : ((yi - 1 : ℤ) : ℚ) = (yi : ℚ) - 1 := by push_cast; ring
        rw [c1, c2] at hrun
        exact hrun
      · have hge : 2 ≤ mi := by omega
        rw [if_neg (by
          simp only [decide_eq_true_eq, not_le]
          have : (2 : ℚ) ≤ (mi : ℚ) := by exact_mod_cast hge
          linarith)]
        obtain ⟨m', y', hb1, hb2, heq, hrun⟩ := ih (mi - 1) yi (by omega) (by omega)
        refine ⟨m', y', hb1, hb2, by push_cast at heq ⊢; linarith, ?_⟩
        have c2 : ((mi - 1 : ℤ) : ℚ) = (mi : ℚ) - 1 := by push_cast; ring
        rw [c2] at hrun
        exact hrun

theorem numToStr_intCast (z : ℤ) : numToStr (some (z : ℚ)) = toString z := by
  show (if ((z : ℚ)).den = 1 then toString ((z : ℚ)).num else toString ((z : ℚ))) = toString z
  rw [if_pos (Rat.den_intCast z), Rat.num_intCast]

/-- C9 (amended): for a key whose parsed month is between 1 and 12,
`minusMonths` subtracts exactly `n` calendar months — the resulting month
stays between 1 and 12 and `12*y' + m' = 12*y + m − n` — and renders the
month zero-padded to two digits; the year however is rendered WITHOUT
padding (JS `String(y)`), so the result is a well-formed MonthKey only
when the resulting year has four digits.  The examples
`shiftBack("03/2024", 12) = "03/2023"` and `shiftBack("02/2024", 2) =
"12/2023"` hold. -/
theorem minusMonths_arith (key : String) (n : Nat) (mi yi : ℤ)
    (hparts : monthYearParts key = (some (mi : ℚ), some (yi : ℚ)))
    (hm1 : 1 ≤ mi) (hm2 : mi ≤ 12) :
    (∃ m' y' : ℤ, 1 ≤ m' ∧ m' ≤ 12 ∧ 12 * y' + m' = 12 * yi + mi - n ∧
      minusMonths key n = padStart2 (toString m') ++ "/" ++ toString y' ∧
      (padStart2 (toString m')).length = 2) ∧
    minusMonths "03/2024" 12 = "03/2023" ∧ minusMonths "02/2024" 2 = "12/2023" := by
  refine ⟨?_, by decide, by decide⟩
  obtain ⟨m', y', hb1, hb2, heq, hrun⟩ := minusMonthsAux_int n mi yi hm1 hm2
  refine ⟨m', y', hb1, hb2, heq, ?_, ?_⟩
  · unfold minusMonths
    rw [hparts]
    simp only [hrun]
    rw [numToStr_intCast, numToStr_intCast]
  · interval_cases m' <;> decide

/-- Witness for C9 (amended), instantiating it at `"03/2024"` and 12
months back. -/
theorem minusMonths_arith_witness : minusMonths "03/2024" 12 = "03/2023" :=
  (minusMonths_arith "03/2024" 12 3 2024 (by decide) (by decide) (by decide)).2.1

/-! ### Parser step lemmas -/

theorem parseLineAux_open (rest cur : List Char) :
    parseLineAux ('"' :: rest) cur false = parseLineAux rest cur true := by
  cases rest with
  | nil => rfl
  | cons c t => by_cases h : c = '"' <;> simp [parseLineAux]

theorem parseLineAux_close {rest : List Char} (cur : List Char) (h : rest.head? ≠ some '"') :
    parseLineAux ('"' :: rest) cur true = parseLineAux rest cur false := by
  cases rest with
  | nil => rfl
  | cons c t =>
      simp only [List.head?_cons, ne_eq, Option.some.injEq] at h
      simp [parseLineAux, h]

theorem parseLineAux_escape (rest cur : List Char) :
    parseLineAux ('"' :: '"' :: rest) cur true = parseLineAux rest (cur ++ ['"']) true := rfl

theorem parseLineAux_inq_char {c : Char} (rest cur : List Char) (h : c ≠ '"') :
    parseLineAux (c :: rest) cur true = parseLineAux rest (cur ++ [c]) true := by
  simp [parseLineAux, h]

theorem parseLineAux_plain_char {c : Char} (rest cur : List Char) (h1 : c ≠ '"') (h2 : c ≠ ',') :
    parseLineAux (c :: rest) cur false = parseLineAux rest (cur ++ [c]) false := by
  simp [parseLineAux, h1, h2]

theorem parseLineAux_comma (rest cur : List Char) :
    parseLineAux (',' :: rest) cur false =
      String.mk (trimChars cur) :: parseLineAux rest [] false := by
  simp [parseLineAux]

/-! ### C7: quoted fields round-trip -/

/-- Spec-side encoder: double every quote character of a field. -/
def doubleQuotes : List Char → List Char
  | [] => []
  | '"' :: cs => '"' :: '"' :: doubleQuotes cs
  | c :: cs => c :: doubleQuotes cs

/-- Spec-side encoder: a field rendered as a double-quoted CSV field, with
internal quotes escaped by doubling. -/
def encField (f : List Char) : List Char := '"' :: (doubleQuotes f ++ ['"'])

/-- Spec-side encoder: a whole CSV line of quoted fields joined by commas. -/
def encodeFields : List (List Char) → List Char
  | [] => []
  | [f] => encField f
  | f :: fs => encField f ++ ',' :: encodeFields fs

theorem doubleQuotes_cons_quote (cs : List Char) :
    doubleQuotes ('"' :: cs) = '"' :: '"' :: doubleQuotes cs := rfl

theorem doubleQuotes_cons_ne {c : Char} (cs : List Char) (h : c ≠ '"') :
    doubleQuotes (c :: cs) = c :: doubleQuotes cs := by
  simp [doubleQuotes, h]

theorem parseLineAux_scan_quoted (f : List Char) :
    ∀ (cur rest : List Char), rest.head? ≠ some '"' →
      parseLineAux (doubleQuotes f ++ '"' :: rest) cur true = parseLineAux rest (cur ++ f) false := by
  induction f with
  | nil =>
      intro cur rest h
      simpa using parseLineAux_close cur h
  | cons c f' ih =>
      intro cur rest h
      by_cases hc : c = '"'
      · subst hc
        rw [doubleQuotes_cons_quote, List.cons_append, List.cons_append,
          parseLineAux_escape, ih (cur ++ ['"']) rest h]
        simp
      · rw [doubleQuotes_cons_ne f' hc, List.cons_append,
          parseLineAux_inq_char _ _ hc, ih (cur ++ [c]) rest h]
        simp

theorem parseLineAux_encode (fs : List (List Char)) :
    ∀ (f cur : List Char),
      parseLineAux (encodeFields (f :: fs)) cur false =
        String.mk (trimChars (cur ++ f)) :: fs.map (fun g => String.mk (trimChars g)) := by
  induction fs with
  | nil =>
      intro f cur
      show parseLineAux ('"' :: (doubleQuotes f ++ ['"'])) cur false = _
      rw [parseLineAux_open]
      have : doubleQuotes f ++ ['"'] = doubleQuotes f ++ '"' :: [] := rfl
      rw [this, parseLineAux_scan_quoted f cur [] (by simp)]
      rfl
  | cons g fs' ih =>
      intro f cur
      show parseLineAux (encField f ++ ',' :: encodeFields (g :: fs')) cur false = _
      have he : encField f ++ ',' :: encodeFields (g :: fs') =
          '"' :: (doubleQuotes f ++ '"' :: (',' :: encodeFields (g :: fs'))) := by
        unfold encField
        simp
      rw [he, parseLineAux_open,
        parseLineAux_scan_quoted f cur (',' :: encodeFields (g :: fs')) (by simp),
        parseLineAux_comma, ih g []]
      simp

/-- C7: a line of double-quoted fields (internal quotes doubled, commas
allowed inside the quotes) parses back to exactly those fields, quotes
stripped and each field whitespace-trimmed; and concretely the CSV
`A,B,C` / `Coal,"1,234.5",Nuclear` parses field B as the string
`1,234.5`. -/
theorem parseCSV_quoted_fields :
    (∀ (f : List Char) (fs : List (List Char)),
      parseLine (encodeFields (f :: fs)) =
        (f :: fs).map (fun g => String.mk (trimChars g))) ∧
    parseCSVSimple "A,B,C\nCoal,\"1,234.5\",Nuclear" =
      ⟨["A", "B", "C"], [["Coal", "1,234.5", "Nuclear"]]⟩ := by
  refine ⟨?_, by decide⟩
  intro f fs
  unfold parseLine
  simpa using parseLineAux_encode fs f []

/-! ### C10: totality and unterminated quotes -/

theorem parseLineAux_length (cs cur : List Char) (inQ : Bool) :
    1 ≤ (parseLineAux cs cur inQ).length := by
  induction cs, cur, inQ using parseLineAux.induct <;> simp_all [parseLineAux] <;>
    split <;> simp_all

theorem parseLineAux_no_quote (cs : List Char) : ∀ cur, '"' ∉ cs →
    parseLineAux cs cur true = [String.mk (trimChars (cur ++ cs))] := by
  induction cs with
  | nil =>
      intro cur _
      simp [parseLineAux]
  | cons c rest ih =>
      intro cur h
      have hc : c ≠ '"' := fun e => h (by rw [e]; exact List.mem_cons_self '"' rest)
      rw [parseLineAux_inq_char _ _ hc, ih (cur ++ [c]) (fun hm => h (List.mem_cons_of_mem _ hm))]
      simp

theorem parseLineAux_unterminated (a : List Char) : ∀ cur cs, '"' ∉ a → ',' ∉ a → '"' ∉ cs →
    parseLineAux (a ++ '"' :: cs) cur false = [String.mk (trimChars (cur ++ (a ++ cs)))] := by
  induction a with
  | nil =>
      intro cur cs _ _ hq
      rw [List.nil_append, parseLineAux_open, parseLineAux_no_quote cs cur hq]
      simp
  | cons c a' ih =>
      intro cur cs hq hcm hq2
      have hc : c ≠ '"' := fun e => hq (by rw [e]; exact List.mem_cons_self '"' a')
      have hc2 : c ≠ ',' := fun e => hcm (by rw [e]; exact List.mem_cons_self ',' a')
      rw [List.cons_append, parseLineAux_plain_char _ _ hc hc2,
        ih (cur ++ [c]) cs (fun hm => hq (List.mem_cons_of_mem _ hm))
          (fun hm => hcm (List.mem_cons_of_mem _ hm)) hq2]
      simp

/-- C10: the parser is total — on any input with at least one non-empty
line the header has at least one field and every data row has at least one
field — and an unterminated quote makes the rest of the line (commas
included) one single field, with the quote character removed and the ends
trimmed. -/
theorem parseCSV_total_spec :
    (∀ text, nonEmptyLines text ≠ [] →
      1 ≤ (parseCSVSimple text).header.length ∧
      ∀ r ∈ (parseCSVSimple text).rows, 1 ≤ r.length) ∧
    (∀ a cs : List Char, '"' ∉ a → ',' ∉ a → '"' ∉ cs →
      parseLine (a ++ '"' :: cs) = [String.mk (trimChars (a ++ cs))]) := by
  constructor
  · intro text hne
    unfold parseCSVSimple
    rcases hl : nonEmptyLines text with _ | ⟨l, rest⟩
    · exact absurd hl hne
    · simp only []
      constructor
      · exact parseLineAux_length l [] false
      · intro r hr
        obtain ⟨l', _, rfl⟩ := List.mem_map.mp hr
        exact parseLineAux_length l' [] false
  · intro a cs hq hcm hq2
    unfold parseLine
    simpa using parseLineAux_unterminated a [] cs hq hcm hq2

/-- Witness for C10: the one-line input `"x"` yields a one-field header,
and the unterminated-quote clause applied to the line `a"b,c`. -/
theorem parseCSV_total_spec_witness :
    1 ≤ (parseCSVSimple "x").header.length ∧
    parseLine ['a', '"', 'b', ',', 'c'] = [String.mk (trimChars ['a', 'b', ',', 'c'])] :=
  ⟨(parseCSV_total_spec.1 "x" (by decide)).1,
   by simpa using parseCSV_total_spec.2 ['a'] ['b', ',', 'c'] (by decide) (by decide) (by decide)⟩

/-! ### C5: clamping a month key into the options -/

theorem find_none_all {l : List String} {target : String}
    (h : l.reverse.find? (fun o => cmpLeB o target) = none) :
    ∀ o ∈ l, cmpLeB o target = false := by
  intro o ho
  have := List.find?_eq_none.mp h o (List.mem_reverse.mpr ho)
  simpa using this

theorem sorted_find_last {l : List String} (target : String)
    (hs : List.Pairwise MKle l) {r : String}
    (h : l.reverse.find? (fun o => cmpLeB o target) = some r) :
    cmpLeB r target = true ∧ r ∈ l ∧ ∀ o ∈ l, cmpLeB o target = true → MKle o r := by
  obtain ⟨as, bs, hsplit, hall, hr⟩ := find?_split _ _ _ h
  have hl : l = bs.reverse ++ r :: as.reverse := by
    have := congrArg List.reverse hsplit
    simpa [List.reverse_append] using this
  refine ⟨hr, ?_, ?_⟩
  · rw [hl]
    simp
  · intro o ho hole
    rw [hl] at hs ho
    rcases List.mem_append.mp ho with hbs | hras
    · exact (List.pairwise_append.mp hs).2.2 o hbs r (by simp)
    · rcases List.mem_cons.mp hras with rfl | has
      · exact MKle_refl o
      · have hfalse : cmpLeB o target = false := hall o (List.mem_reverse.mp has)
        rw [hole] at hfalse
        exact absurd hfalse (by simp)

/-- C5: `clampMonthKeyToOptions` returns the target when the options are
empty or contain it; otherwise it returns the greatest option not after
the target under month-key order when one exists, and the smallest option
when every option is after the target.  The two worked examples of the
spec hold. -/
theorem clampMonthKeyToOptions_spec (target : String) (options : List String)
    (ht : isMonthShape target = true) (ho : ∀ o ∈ options, isMonthShape o = true) :
    (options = [] → clampMonthKeyToOptions target options = target) ∧
    (target ∈ options → clampMonthKeyToOptions target options = target) ∧
    (target ∉ options → options ≠ [] →
      ((∃ o ∈ options, ∃ q, compareMonthKey o target = some q ∧ q ≤ 0) →
        clampMonthKeyToOptions target options ∈ options ∧
        (∃ q, compareMonthKey (clampMonthKeyToOptions target options) target = some q ∧ q ≤ 0) ∧
        ∀ o ∈ options, (∃ q, compareMonthKey o target = some q ∧ q ≤ 0) →
          ∃ q, compareMonthKey o (clampMonthKeyToOptions target options) = some q ∧ q ≤ 0) ∧
      ((∀ o ∈ options, ¬∃ q, compareMonthKey o target = some q ∧ q ≤ 0) →
        clampMonthKeyToOptions target options ∈ options ∧
        ∀ o ∈ options,
          ∃ q, compareMonthKey (clampMonthKeyToOptions target options) o = some q ∧ q ≤ 0)) ∧
    clampMonthKeyToOptions "03/2023" ["01/2023", "06/2023", "01/2024"] = "01/2023" ∧
    clampMonthKeyToOptions "12/2022" ["01/2023", "06/2023", "01/2024"] = "01/2023" := by
  refine ⟨?_, ?_, ?_, by decide, by decide⟩
  · intro h
    unfold clampMonthKeyToOptions
    rw [if_pos h]
  · intro h
    by_cases he : options = []
    · unfold clampMonthKeyToOptions
      rw [if_pos he]
    · unfold clampMonthKeyToOptions
      rw [if_neg he, if_pos h]
  · intro hnot hne
    unfold clampMonthKeyToOptions
    rw [if_neg hne, if_neg hnot]
    simp only []
    have hperm : ∀ x : String,
        x ∈ List.insertionSort MKle options ↔ x ∈ options :=
      fun x => List.mem_insertionSort MKle
    have hsorted : List.Pairwise MKle (List.insertionSort MKle options) :=
      List.sorted_insertionSort MKle options
    constructor
    · rintro ⟨o, hoo, hq⟩
      rcases hf : (List.insertionSort MKle options).reverse.find? (fun o => cmpLeB o target)
        with _ | r
      · exfalso
        have hfalse := find_none_all hf o ((hperm o).mpr hoo)
        rw [cmpLeB_iff.mpr hq] at hfalse
        exact absurd hfalse (by simp)
      · obtain ⟨hle, hrmem, hgreat⟩ := sorted_find_last target hsorted hf
        refine ⟨(hperm r).mp hrmem, cmpLeB_iff.mp hle, ?_⟩
        intro o' ho' hq'
        have hmk : MKle o' r := hgreat o' ((hperm o').mpr ho') (cmpLeB_iff.mpr hq')
        obtain ⟨q, hcq, hiff⟩ := compare_shape (ho o' ho') (ho r ((hperm r).mp hrmem))
        exact ⟨q, hcq, hiff.mpr hmk⟩
    · intro hnone
      have hf : (List.insertionSort MKle options).reverse.find? (fun o => cmpLeB o target)
          = none := by
        rw [List.find?_eq_none]
        intro x hx
        have hxo : x ∈ options := (hperm x).mp (List.mem_reverse.mp hx)
        simp only [Bool.not_eq_true]
        by_contra hcontra
        rw [Bool.not_eq_false] at hcontra
        exact hnone x hxo (cmpLeB_iff.mp hcontra)
      rw [hf]
      rcases hs : List.insertionSort MKle options with _ | ⟨x, t⟩
      · exfalso
        obtain ⟨o, hoo⟩ := List.exists_mem_of_ne_nil options hne
        have := (hperm o).mpr hoo
        rw [hs] at this
        exact absurd this (by simp)
      · simp only [List.headD_cons]
        have hxmem : x ∈ options := (hperm x).mp (hs ▸ List.mem_cons_self x t)
        refine ⟨hxmem, ?_⟩
        intro o ho'
        have hmk : MKle x o := by
          have hsx : List.Pairwise MKle (x :: t) := hs ▸ hsorted
          have hox : o ∈ x :: t := hs ▸ ((hperm o).mpr ho')
          rcases List.mem_cons.mp hox with rfl | hot
          · exact MKle_refl o
          · exact (List.pairwise_cons.mp hsx).1 o hot
        obtain ⟨q, hcq, hiff⟩ := compare_shape (ho x hxmem) (ho o ho')
        exact ⟨q, hcq, hiff.mpr hmk⟩

/-- Witness for C5: clamping `03/2023` into
`[01/2023, 06/2023, 01/2024]` yields a member of the options. -/
theorem clampMonthKeyToOptions_spec_witness :
    clampMonthKeyToOptions "03/2023" ["01/2023", "06/2023", "01/2024"] ∈
      ["01/2023", "06/2023", "01/2024"] :=
  (((clampMonthKeyToOptions_spec "03/2023" ["01/2023", "06/2023", "01/2024"]
      (by decide) (by decide)).2.2.1 (by decide) (by decide)).1
    ⟨"01/2023", by decide, ⟨-2, by decide, by decide⟩⟩).1

/-! ### C6: the start ≤ end selection invariant -/

theorem compareMonthKey_empty_right (a : String) : compareMonthKey a "" = none := by
  unfold compareMonthKey
  rw [show monthYearParts "" = (some 0, none) by decide]
  rcases h : monthYearParts a with ⟨am, ay⟩
  rcases ay with _ | ya <;> rfl

theorem compareMonthKey_empty_left (b : String) : compareMonthKey "" b = none := by
  unfold compareMonthKey
  rw [show monthYearParts "" = (some 0, none) by decide]

theorem cmp_some_ne_empty {a b : String} {q : ℚ} (h : compareMonthKey a b = some q) :
    a ≠ "" ∧ b ≠ "" := by
  constructor
  · rintro rfl
    rw [compareMonthKey_empty_left] at h
    cases h
  · rintro rfl
    rw [compareMonthKey_empty_right] at h
    cases h

theorem enforce_inv (st : SelState) : ∀ q,
    compareMonthKey (enforceStartLE st).startMonth (enforceStartLE st).endMonth = some q →
      q ≤ 0 := by
  intro q h
  unfold enforceStartLE at h
  split at h
  · exact le_of_eq (cmp_self_eq_zero h)
  case isFalse hcond =>
    have hne := cmp_some_ne_empty h
    have hng : cmpGtB st.startMonth st.endMonth ≠ true := by
      intro hgt
      exact hcond ⟨hne.1, hne.2, hgt⟩
    unfold cmpGtB at hng
    rw [h] at hng
    simp only [decide_eq_true_eq] at hng
    linarith [not_lt.mp fun hlt => hng (by simpa using hlt)]

/-- C6: in every reachable selection state, whenever the comparator is
defined on the two selected months (in particular whenever both are
well-formed month keys), start compares not-after end; and a `setEnd`
action choosing a month strictly before the current start forces the start
down so that both equal the new end month. -/
theorem selection_start_le_end :
    (∀ st, SelReachable st → ∀ q,
      compareMonthKey st.startMonth st.endMonth = some q → q ≤ 0) ∧
    (∀ st m q, st.startMonth ≠ "" → compareMonthKey st.startMonth m = some q → 0 < q →
      (selStep (SelAction.setEnd m) st).startMonth = m ∧
      (selStep (SelAction.setEnd m) st).endMonth = m) := by
  constructor
  · intro st hr
    induction hr with
    | init =>
        intro q hq
        rw [show selInit.startMonth = "" from rfl, compareMonthKey_empty_left] at hq
        cases hq
    | step a st' _ _ => exact enforce_inv (applySelAction a st')
  · intro st m q hs hcmp hpos
    have hm : m ≠ "" := (cmp_some_ne_empty hcmp).2
    show (enforceStartLE ⟨st.startMonth, m⟩).startMonth = m ∧
      (enforceStartLE ⟨st.startMonth, m⟩).endMonth = m
    unfold enforceStartLE
    rw [if_pos]
    · exact ⟨rfl, rfl⟩
    · refine ⟨hs, hm, ?_⟩
      unfold cmpGtB
      rw [hcmp]
      simpa using hpos

/-- Witness for C6: a concrete reachable state (set start to `06/2024`,
then set end to the earlier `05/2024`) satisfies the invariant, and the
violating `setEnd` action forces start down to the new end. -/
theorem selection_start_le_end_witness :
    (0 : ℚ) ≤ 0 ∧
    (selStep (SelAction.setEnd "05/2024") ⟨"06/2024", "07/2024"⟩).startMonth = "05/2024" :=
  ⟨selection_start_le_end.1
      (selStep (SelAction.setEnd "05/2024") (selStep (SelAction.setStart "06/2024") selInit))
      (SelReachable.step _ _ (SelReachable.step _ _ SelReachable.init)) 0 (by decide),
   (selection_start_le_end.2 ⟨"06/2024", "07/2024"⟩ "05/2024" 1 (by decide) (by decide)
      (by decide)).1⟩
